import Mathlib

/-!
Shallow embedding of the Triplit route-ordering and day-packing engine.

The embedding follows `src/optimizer.py` and `src/trips_service.py`.
Costs (OSRM durations in seconds, travel minutes) are modelled as exact
rationals `ℚ`; the Python floats carry the same arithmetic on all inputs
used here.  Python sets of small natural numbers (`set(range(n))` with
elements removed) iterate in ascending order in CPython, so the unvisited
pool is modelled as a strictly sorted list and `min(..., key=f)` as a left
fold that replaces the current best only on strict improvement — exactly
the first-minimum-in-iteration-order semantics of Python's `min`.
-/

namespace Triplit

/-- Result record of the optimizer (`OptimizeResult` in `src/optimizer.py`):
an index order plus its total open-path cost. -/
structure OptimizeResult where
  order : List Nat
  total_cost : ℚ
deriving DecidableEq

/-- Python's `max(0, min(int(i), n - 1))` clamp used for anchor indices. -/
def clampIdx (n : Nat) (i : Int) : Nat :=
  (max 0 (min i ((n : Int) - 1))).toNat

/-- Embedding of `path_cost` (`src/optimizer.py` lines 44-50): sum of
consecutive edge costs of an open path; paths of length ≤ 1 cost 0. -/
def path_cost (cost : Nat → Nat → ℚ) : List Nat → ℚ
  | [] => 0
  | [_] => 0
  | a :: b :: rest => cost a b + path_cost cost (b :: rest)

/-- Python's `min(c :: cs, key=f)`: left fold keeping the current best and
replacing it only on a strictly smaller key, so the first element attaining
the minimum in iteration order wins.  The `[]` case never arises in the
program (Python would raise on `min([])`). -/
def pickNext (f : Nat → ℚ) : List Nat → Nat
  | [] => 0
  | c :: cs => cs.foldl (fun b j => if f j < f b then j else b) c

/-- Row sums `cost.sum(axis=1)` of the cost matrix. -/
def rowSum (n : Nat) (cost : Nat → Nat → ℚ) (i : Nat) : ℚ :=
  ((List.range n).map (cost i)).sum

/-- Embedding of `choose_central_start` (`src/optimizer.py` lines 53-59):
the index with minimum row sum (`np.argmin` picks the first minimum). -/
def choose_central_start (n : Nat) (cost : Nat → Nat → ℚ) : Nat :=
  if n = 0 then 0 else pickNext (rowSum n cost) (List.range n)

/-- The candidate pool of one nearest-neighbor step (`src/optimizer.py`
lines 84-87): if a fixed end is still unvisited and more than one node
remains, the end is excluded from the choices. -/
def nnChoices (e : Option Nat) (pool : List Nat) : List Nat :=
  match e with
  | none => pool
  | some ee => if ee ∈ pool ∧ 1 < pool.length then pool.filter (fun j => j ≠ ee) else pool

/-- The `while unvisited:` loop of `nearest_neighbor_path` (`src/optimizer.py`
lines 83-94).  `fuel` bounds the number of iterations; the callers pass the
size of the unvisited pool, which is exactly the number of iterations the
Python loop performs.  The `[] => u` fallback for an empty choice list is
unreachable for the duplicate-free pools the program builds. -/
def nnLoop (cost : Nat → Nat → ℚ) (e : Option Nat) : Nat → Nat → List Nat → List Nat
  | 0, _, _ => []
  | _ + 1, _, [] => []
  | fuel + 1, current, u :: us =>
    let next :=
      match nnChoices e (u :: us) with
      | [] => u
      | c :: cs => pickNext (cost current) (c :: cs)
    next :: nnLoop cost e fuel next ((u :: us).erase next)

/-- Embedding of `nearest_neighbor_path` (`src/optimizer.py` lines 63-95):
clamp the start, drop an end equal to the start, then greedily extend from
the start through the unvisited pool `set(range(n)) - {start}`. -/
def nearest_neighbor_path (n : Nat) (cost : Nat → Nat → ℚ) (start : Int) (e : Option Int) :
    List Nat :=
  if n = 0 then []
  else
    let s := clampIdx n start
    let e1 : Option Nat :=
      match e with
      | none => none
      | some ee => if clampIdx n ee = s then none else some (clampIdx n ee)
    s :: nnLoop cost e1 (n - 1) s ((List.range n).erase s)

/-- Numerical epsilon `1e-9` guarding 2-Opt acceptance (`src/optimizer.py`
line 127). -/
def EPS : ℚ := 1 / 1000000000

/-- One 2-Opt candidate `best[:i] + reversed(best[i:k+1]) + best[k+1:]`
(`src/optimizer.py` line 125). -/
def twoOptCandidate (best : List Nat) (i k : Nat) : List Nat :=
  best.take i ++ ((best.drop i).take (k + 1 - i)).reverse ++ best.drop (k + 1)

/-- The scan order of the 2-Opt double loop (`src/optimizer.py` lines
120-121): `i` in `range(start_i, n - 2)`, then `k` in `range(i + 1, n - 1)`. -/
def scanPairs (startI n : Nat) : List (Nat × Nat) :=
  (List.range' startI (n - 2 - startI)).flatMap
    (fun i => (List.range' (i + 1) (n - 1 - (i + 1))).map (fun k => (i, k)))

/-- One full scan of the 2-Opt double loop: the first candidate improving on
`bc` by more than `EPS`, together with its cost, or `none`.  The
`k - i < 1` guard (`src/optimizer.py` line 122) is kept although it never
fires, since `k` starts at `i + 1`. -/
def findImprovement (cost : Nat → Nat → ℚ) (best : List Nat) (bc : ℚ) :
    List (Nat × Nat) → Option (List Nat × ℚ)
  | [] => none
  | (i, k) :: rest =>
    if k - i < 1 then findImprovement cost best bc rest
    else if path_cost cost (twoOptCandidate best i k) + EPS < bc then
      some (twoOptCandidate best i k, path_cost cost (twoOptCandidate best i k))
    else findImprovement cost best bc rest

/-- The `while improved and iters < max_iter:` loop of `two_opt_improve`
(`src/optimizer.py` lines 114-133): each iteration restarts the scan and
accepts the first strict improvement found. -/
def twoOptLoop (cost : Nat → Nat → ℚ) (startI n : Nat) :
    Nat → List Nat → ℚ → List Nat
  | 0, best, _ => best
  | iters + 1, best, bc =>
    match findImprovement cost best bc (scanPairs startI n) with
    | none => best
    | some (cand, cc) => twoOptLoop cost startI n iters cand cc

/-- Embedding of `two_opt_improve` (`src/optimizer.py` lines 98-135): paths
of length ≤ 3 are returned unchanged; otherwise first-improvement 2-Opt,
with segment reversals starting at position 1 when the start is fixed. -/
def two_opt_improve (cost : Nat → Nat → ℚ) (order : List Nat) (fixed_start : Bool)
    (max_iter : Nat) : List Nat :=
  if order.length ≤ 3 then order
  else
    twoOptLoop cost (if fixed_start then 1 else 0) order.length max_iter order
      (path_cost cost order)

/-- The body of `optimize_order_from_durations` after validation
(`src/optimizer.py` lines 147-176), over an `n × n` cost matrix given as a
function.  The `n = 0` branch inside the no-start case mirrors the dead
`if n == 0: start = 0` of the source. -/
def optimize_core (n : Nat) (cost : Nat → Nat → ℚ)
    (fixed_start_index : Option Int) (fixed_end_index : Option Int) : OptimizeResult :=
  if n ≤ 1 then ⟨List.range n, 0⟩
  else
    let end0 : Option Nat := fixed_end_index.map (clampIdx n)
    let sp : Nat × Bool :=
      match fixed_start_index with
      | none =>
        (if n = 0 then 0
         else
           match end0 with
           | none => choose_central_start n cost
           | some e => pickNext (rowSum n cost) ((List.range n).filter (fun i => i ≠ e)),
         false)
      | some s => (clampIdx n s, true)
    let start := sp.1
    let end1 : Option Nat := if end0 = some start then none else end0
    let nn := nearest_neighbor_path n cost (start : Int) (end1.map (fun x => (x : Int)))
    let improved := two_opt_improve cost nn sp.2 2000
    ⟨improved, path_cost cost improved⟩

/-! ## Cost matrix validation (`src/optimizer.py` lines 23-41)

A raw cell is `Option ℚ`: `none` is Python's `None` (an unreachable pair).
`np.array(matrix, dtype=float)` turns `None` into `nan`, which
`_to_cost_matrix` then replaces by `+inf`; the converted cell is therefore
`WithTop ℚ` with `⊤` as the infinite sentinel.  `np.array` of a ragged
list of rows raises, and `np.array([])` yields a one-dimensional array of
shape `(0,)`, so the empty raw matrix reaches `validate_full_matrix` with
`ndim == 1`, not as a 2-D `0 × 0` array. -/

/-- Raw durations matrix as handed to the optimizer: rows of possibly
missing (`None`) cells. -/
abbrev RawMatrix := List (List (Option ℚ))

/-- Conversion of one raw cell: `None`/`nan` becomes the infinite sentinel
(`src/optimizer.py` lines 28-30). -/
def toCostVal : Option ℚ → WithTop ℚ
  | none => ⊤
  | some q => (q : WithTop ℚ)

/-- Embedding of `_to_cost_matrix` (`src/optimizer.py` lines 23-31):
`np.array(matrix, dtype=float)` raises on a ragged list of rows, otherwise
every missing cell becomes the infinite sentinel. -/
def to_cost_matrix (m : RawMatrix) : Except String (List (List (WithTop ℚ))) :=
  if m.all (fun r => r.length = (m.headD []).length) then
    .ok (m.map (fun r => r.map toCostVal))
  else .error "setting an array element with a sequence"

/-- Embedding of `validate_full_matrix` (`src/optimizer.py` lines 34-41) on
an array built from a list of rows: the empty list is the 1-D shape-`(0,)`
array and fails the `ndim != 2` test; a nonempty rectangular array has
shape `(rows, cols)` and must be square; the `n == 0` early return of the
source is kept although no 0-row array passes the shape test here; finally
any infinite sentinel is rejected. -/
def validate_full_matrix (cm : List (List (WithTop ℚ))) : Except String Unit :=
  if cm.length = 0 ∨ ¬ cm.all (fun r => r.length = cm.length) then
    .error "Cost matrix must be NxN"
  else if cm.length = 0 then .ok ()
  else if cm.any (fun r => r.any (fun c => c = ⊤)) then
    .error "Cost matrix contains unreachable pairs (inf)."
  else .ok ()

/-- Lookup of the validated matrix as a total cost function; the defaults
are never read once `validate_full_matrix` has accepted the matrix. -/
def matEntry (cm : List (List (WithTop ℚ))) (i j : Nat) : ℚ :=
  (((cm.get? i).bind (fun r => r.get? j)).getD ⊤).untop' 0

/-- Embedding of `optimize_order_from_durations` (`src/optimizer.py` lines
138-176): convert, validate, then run the nearest-neighbor + 2-Opt core on
the `n × n` matrix (`n` is the number of rows). -/
def optimize_order_from_durations (m : RawMatrix)
    (fixed_start_index : Option Int) (fixed_end_index : Option Int) :
    Except String OptimizeResult :=
  match to_cost_matrix m with
  | .error e => .error e
  | .ok cm =>
    match validate_full_matrix cm with
    | .error e => .error e
    | .ok _ => .ok (optimize_core m.length (matEntry cm) fixed_start_index fixed_end_index)

/-- The validation prefix of `optimize_order_from_durations`
(`src/optimizer.py` lines 145-146): conversion followed by validation. -/
def validate_durations (m : RawMatrix) : Except String Unit :=
  match to_cost_matrix m with
  | .error e => .error e
  | .ok cm => validate_full_matrix cm

/-! ## Constrained route selector (`src/trips_service.py` lines 483-559) -/

/-- A caller-supplied anchor id as it reaches `optimize_trip_route`:
absent (`None`), blank (whitespace-only string), malformed (fails
`int(...)`), or an integer id. -/
inductive RawAnchor where
  | absent
  | blank
  | malformed
  | intVal (i : Int)
deriving DecidableEq

/-- Embedding of the anchor resolution of `optimize_trip_route`
(`src/trips_service.py` lines 485-494): a malformed id is swallowed by the
`except Exception` handler, an unknown id makes `id_to_index.get` return
`None`; both leave the anchor unset. -/
def resolve_anchor (idToIndex : Int → Option Nat) : RawAnchor → Option Nat
  | .absent => none
  | .blank => none
  | .malformed => none
  | .intVal i => idToIndex i

/-- Embedding of the anchor phase of `optimize_trip_route`
(`src/trips_service.py` lines 483-497): resolve both anchors, then drop the
end anchor when both resolved to the same index.  No code path in these
lines raises. -/
def anchor_phase (idToIndex : Int → Option Nat) (rawStart rawEnd : RawAnchor) :
    Except String (Option Nat × Option Nat) :=
  .ok (resolve_anchor idToIndex rawStart,
    if resolve_anchor idToIndex rawStart ≠ none ∧ resolve_anchor idToIndex rawEnd ≠ none ∧
        resolve_anchor idToIndex rawStart = resolve_anchor idToIndex rawEnd then
      none
    else resolve_anchor idToIndex rawEnd)

/-- The 12% soft-preference degradation ceiling `SOFT_MAX_DEGRADATION`
(`src/trips_service.py` line 530). -/
def SOFT_MAX_DEGRADATION : ℚ := 12 / 100

/-- Embedding of the acceptance rule of `optimize_trip_route`
(`src/trips_service.py` lines 552-559): accept the best soft candidate only
when one exists, the baseline cost is positive, and the candidate's cost is
within `base.total_cost * 1.12`; otherwise return the baseline. -/
def select_result (base : OptimizeResult) (best_soft : Option OptimizeResult) :
    OptimizeResult :=
  match best_soft with
  | some bs =>
    if 0 < base.total_cost then
      if bs.total_cost ≤ base.total_cost * (1 + SOFT_MAX_DEGRADATION) then bs else base
    else base
  | none => base

/-! ## Day packing engine (`src/trips_service.py` lines 193-370)

Python's `round(x)` / `round(x, 1)` round half to even; `int(x)` truncates
toward zero.  Both are modelled exactly on `ℚ`.  `str.strip().lower()` is
modelled for ASCII input, which covers every pace and category keyword the
engine compares against. -/

/-- ASCII model of Python's `str.lower` for one character. -/
def pyLowerChar (c : Char) : Char :=
  if 'A' ≤ c ∧ c ≤ 'Z' then Char.ofNat (c.toNat + 32) else c

/-- ASCII model of Python's `str.lower`. -/
def pyLower (s : String) : String := ⟨s.data.map pyLowerChar⟩

/-- ASCII model of Python's `str.strip` (spaces only, which is all the
engine's inputs contain). -/
def pyStrip (s : String) : String :=
  ⟨((s.data.dropWhile (fun c => c = ' ')).reverse.dropWhile (fun c => c = ' ')).reverse⟩

/-- Python's round-half-to-even on a rational, as used by `round(x)`. -/
def roundHalfEven (q : ℚ) : ℤ :=
  let f := q.floor
  let r := q - (f : ℚ)
  if r < 1 / 2 then f
  else if 1 / 2 < r then f + 1
  else if f % 2 = 0 then f else f + 1

/-- Python's `round(x, 1)`: round half to even at one decimal place. -/
def round1 (q : ℚ) : ℚ := (roundHalfEven (q * 10) : ℚ) / 10

/-- Python's `int(x)`: truncation toward zero. -/
def int_trunc (q : ℚ) : ℤ := if 0 ≤ q then q.floor else -(Rat.floor (-q))

/-- Normalisation `(pace or 'balanced').strip().lower()`
(`src/trips_service.py` line 194). -/
def pace_key_of (pace : String) : String :=
  pyLower (pyStrip (if pace = "" then "balanced" else pace))

/-- The `day_budget_min_map.get(pace_key, 480)` lookup
(`src/trips_service.py` lines 198-204). -/
def day_budget_min (pace_key : String) : ℚ :=
  if pace_key = "relaxed" then 360
  else if pace_key = "balanced" then 480
  else if pace_key = "packed" then 600
  else 480

/-- Fixed daily overhead minutes (`src/trips_service.py` line 208). -/
def daily_overhead_min : ℚ := 120

/-- Fixed packing tolerance minutes (`src/trips_service.py` line 212). -/
def tolerance_min : ℚ := 45

/-- A stop as the packing engine sees it: its location id and its category
tag (everything else on the row is irrelevant to packing). -/
structure Stop where
  locId : Nat
  category : Option String
deriving DecidableEq

/-- Embedding of `_estimate_visit_min` (`src/trips_service.py` lines
213-239): category base minutes, pace multiplier, Python `round`, floored
at 30. -/
def estimate_visit_min (pace_key : String) (category : Option String) : ℤ :=
  let c := pyLower (pyStrip (category.getD ""))
  let minutes : ℤ :=
    if c = "heritage" then 90
    else if c = "museum" then 90
    else if c = "religious" then 75
    else if c = "nature" then 120
    else if c = "beach" then 120
    else if c = "adventure" then 180
    else if c = "food" then 60
    else if c = "shopping" then 75
    else if c = "viewpoint" then 45
    else if c = "entertainment" then 90
    else if c = "wellness" then 120
    else if c = "local-experience" then 90
    else 75
  let mult : ℚ :=
    if pace_key = "relaxed" then 115 / 100
    else if pace_key = "packed" then 85 / 100
    else 1
  max 30 (roundHalfEven ((minutes : ℚ) * mult))

/-- One stop committed to a day, with the travel and visit minutes computed
at packing time (`current_day_locs` entries, `src/trips_service.py` lines
299-304). -/
structure PackedItem where
  stop : Stop
  travel : ℚ
  visit : ℚ
deriving DecidableEq

/-- The travel minutes of one step: `seg_map.get((prev_loc_id, loc_id), 0.0)`
when a previous stop exists, else `0` (`src/trips_service.py` lines
286-288). -/
def travel_of (segMap : Nat → Nat → ℚ) (prev : Option Nat) (s : Stop) : ℚ :=
  match prev with
  | none => 0
  | some p => segMap p s.locId

/-- The inner packing loop of `build_trip_itinerary` (`src/trips_service.py`
lines 282-308): pop stops off the queue into the current day while the day
is empty or the next step still fits under `cap = target + tolerance`.
Returns the finished day, the remaining queue, and the last committed
location id (`prev_loc_id` persists across day boundaries). -/
def packDay (pace_key : String) (segMap : Nat → Nat → ℚ) (cap : ℚ) :
    List Stop → Option Nat → ℚ → List PackedItem →
    List PackedItem × List Stop × Option Nat
  | [], prev, _, acc => (acc.reverse, [], prev)
  | s :: rest, prev, active, acc =>
    if acc ≠ [] ∧
        cap < active + (travel_of segMap prev s + (estimate_visit_min pace_key s.category : ℚ)) then
      (acc.reverse, s :: rest, prev)
    else
      packDay pace_key segMap cap rest (some s.locId)
        (active + (travel_of segMap prev s + (estimate_visit_min pace_key s.category : ℚ)))
        (⟨s, travel_of segMap prev s, (estimate_visit_min pace_key s.category : ℚ)⟩ :: acc)

/-- The outer `while temp_locs_queue:` loop (`src/trips_service.py` lines
277-281), one day per iteration.  `fuel` bounds the number of days; each
day consumes at least one stop, so the callers pass the queue length. -/
def packDaysAux (pace_key : String) (segMap : Nat → Nat → ℚ) (cap : ℚ) :
    Nat → List Stop → Option Nat → List (List PackedItem)
  | 0, _, _ => []
  | _ + 1, [], _ => []
  | fuel + 1, s :: rest, prev =>
    let r := packDay pace_key segMap cap (s :: rest) prev 0 []
    r.1 :: packDaysAux pace_key segMap cap fuel r.2.1 r.2.2

/-- All days produced by the packing loop, before stretching and
equalization. -/
def packDays (pace_key : String) (segMap : Nat → Nat → ℚ) (cap : ℚ)
    (queue : List Stop) : List (List PackedItem) :=
  packDaysAux pace_key segMap cap queue.length queue none

/-- Un-stretched active minutes of a packed day: the sum of the travel and
visit minutes computed at packing time (`current_day_active`). -/
def daySteps (items : List PackedItem) : ℚ :=
  (items.map (fun it => it.travel + it.visit)).sum

/-- A location inside a finished day payload (`final_locs` entries,
`src/trips_service.py` lines 330-335). -/
structure DayLoc where
  stop : Stop
  estimated_visit_min : ℤ
  estimated_travel_from_prev_min : ℚ
deriving DecidableEq

/-- A finished day payload (`src/trips_service.py` lines 337-345). -/
structure DayPlan where
  day_number : Nat
  locations : List DayLoc
  travel_min : ℚ
  visit_min : ℚ
  active_min : ℚ
  overhead_min : ℚ
  total_min : ℚ
deriving DecidableEq

/-- Day finalization with stretching (`src/trips_service.py` lines
311-345): if the day is more than 15 minutes under target and has visit
time, scale every visit by `min(1.5, (visit+slack)/visit)` (each rounded to
one decimal), then build the day payload. -/
def finalizeDay (target : ℚ) (day_number : Nat) (items : List PackedItem) : DayPlan :=
  let travel := (items.map (fun it => it.travel)).sum
  let visit0 := (items.map (fun it => it.visit)).sum
  let active0 := travel + visit0
  let slack := target - active0
  let items1 :=
    if 15 < slack ∧ 0 < visit0 then
      items.map (fun it =>
        { it with visit := round1 (it.visit * min (3 / 2) ((visit0 + slack) / visit0)) })
    else items
  let visit1 := (items1.map (fun it => it.visit)).sum
  let active1 := travel + visit1
  { day_number := day_number
    locations := items1.map (fun it => ⟨it.stop, int_trunc it.visit, round1 it.travel⟩)
    travel_min := round1 travel
    visit_min := round1 visit1
    active_min := round1 active1
    overhead_min := daily_overhead_min
    total_min := round1 (active1 + daily_overhead_min) }

/-- Recomputation of a day's aggregates from its location payloads after
the equalization move (`src/trips_service.py` lines 356-369). -/
def recompute_day (d : DayPlan) (locs : List DayLoc) : DayPlan :=
  let travel := round1 ((locs.map (fun l => l.estimated_travel_from_prev_min)).sum)
  let visit := round1 ((locs.map (fun l => (l.estimated_visit_min : ℚ))).sum)
  let active := round1 (travel + visit)
  { d with locations := locs, travel_min := travel, visit_min := visit,
           active_min := active, total_min := round1 (active + d.overhead_min) }

/-- The trailing-day equalization pass (`src/trips_service.py` lines
349-370): if the last day has exactly one stop, the day before it has more
than two, and the last day is under half the target, move the previous
day's final stop to the front of the last day and recompute both days. -/
def equalize_days (target : ℚ) (days : List DayPlan) : List DayPlan :=
  match days.reverse with
  | last :: prev :: rev_front =>
    if last.locations.length = 1 ∧ 2 < prev.locations.length ∧
        last.active_min < target * (1 / 2) then
      match prev.locations.reverse with
      | shifted :: prev_rest_rev =>
        let prev1 := recompute_day prev prev_rest_rev.reverse
        let last1 := recompute_day last (shifted :: last.locations)
        (last1 :: prev1 :: rev_front).reverse
      | [] => days
    else days
  | _ => days

/-- The day-building pipeline of `build_trip_itinerary`
(`src/trips_service.py` lines 193-370): pack the ordered stops into days,
finalize each (with stretching), then run the one-time equalization pass.
The region grouping that follows in the source only regroups these days. -/
def build_days (pace : String) (segMap : Nat → Nat → ℚ) (queue : List Stop) :
    List DayPlan :=
  let pace_key := pace_key_of pace
  let target := day_budget_min pace_key
  let days0 := packDays pace_key segMap (target + tolerance_min) queue
  equalize_days target (days0.enum.map (fun p => finalizeDay target (p.1 + 1) p.2))

/-! ## Lemmas about Python's `min` fold -/

/-- The fold underlying `pickNext` returns an element of the scanned list. -/
theorem foldl_pick_mem (f : Nat → ℚ) :
    ∀ (cs : List Nat) (c : Nat),
      cs.foldl (fun b j => if f j < f b then j else b) c ∈ c :: cs := by
  intro cs
  induction cs with
  | nil => intro c; simp
  | cons j cs' ih =>
    intro c
    simp only [List.foldl_cons]
    by_cases hlt : f j < f c
    · rw [if_pos hlt]
      rcases List.mem_cons.mp (ih j) with h | h
      · simp [h]
      · simp [h]
    · rw [if_neg hlt]
      rcases List.mem_cons.mp (ih c) with h | h
      · simp [h]
      · simp [h]

/-- The fold underlying `pickNext` attains the minimal key. -/
theorem foldl_pick_le (f : Nat → ℚ) :
    ∀ (cs : List Nat) (c : Nat) (j : Nat), j ∈ c :: cs →
      f (cs.foldl (fun b j => if f j < f b then j else b) c) ≤ f j := by
  intro cs
  induction cs with
  | nil => intro c j hj; simp at hj; simp [hj]
  | cons x cs' ih =>
    intro c j hj
    simp only [List.foldl_cons]
    by_cases hlt : f x < f c
    · rw [if_pos hlt]
      rcases List.mem_cons.mp hj with rfl | hj'
      · exact (ih x x (by simp)).trans hlt.le
      · exact ih x j hj'
    · rw [if_neg hlt]
      rcases List.mem_cons.mp hj with rfl | hj'
      · exact ih j j (by simp)
      · rcases List.mem_cons.mp hj' with rfl | hj''
        · exact (ih c c (by simp)).trans (not_lt.mp hlt)
        · exact ih c j (by simp [hj''])

/-- On a strictly sorted candidate list (the iteration order of a CPython
set of small naturals), Python's `min` picks the smallest index among the
candidates that tie for the minimal key. -/
theorem foldl_pick_tie (f : Nat → ℚ) :
    ∀ (cs : List Nat) (c : Nat), (c :: cs).Pairwise (· < ·) →
      ∀ j ∈ c :: cs, f j = f (cs.foldl (fun b j => if f j < f b then j else b) c) →
        cs.foldl (fun b j => if f j < f b then j else b) c ≤ j := by
  intro cs
  induction cs with
  | nil => intro c _ j hj _; simp at hj; simp [hj]
  | cons x cs' ih =>
    intro c hsorted j hj htie
    have hsub : (c :: cs').Sublist (c :: x :: cs') :=
      List.Sublist.cons₂ c (List.sublist_cons_self x cs')
    have hsorted' : (c :: cs').Pairwise (· < ·) := hsorted.sublist hsub
    have hsortedx : (x :: cs').Pairwise (· < ·) :=
      hsorted.sublist (List.sublist_cons_self c _)
    have hcx : c < x := (List.pairwise_cons.mp hsorted).1 x (by simp)
    simp only [List.foldl_cons] at htie ⊢
    by_cases hlt : f x < f c
    · rw [if_pos hlt] at htie ⊢
      rcases List.mem_cons.mp hj with rfl | hj'
      · -- j = c : its key cannot tie the result, which is strictly below f c
        have hres := foldl_pick_le f cs' x x (by simp)
        exact absurd htie (ne_of_gt (lt_of_le_of_lt hres hlt))
      · exact ih x hsortedx j hj' htie
    · rw [if_neg hlt] at htie ⊢
      rcases List.mem_cons.mp hj with rfl | hj'
      · -- j = c : the result ties f c, so by IH inside (c :: cs') it is ≤ c
        exact ih j hsorted' j (by simp) htie
      · rcases List.mem_cons.mp hj' with rfl | hj''
        · -- j = x : the result also ties f c, hence is ≤ c < x
          have h1 := foldl_pick_le f cs' c c (by simp)
          have h2 : f c ≤ f (cs'.foldl (fun b j => if f j < f b then j else b) c) := by
            rw [← htie]; exact not_lt.mp hlt
          have := ih c hsorted' c (by simp) (le_antisymm h2 h1)
          omega
        · exact ih c hsorted' j (by simp [hj'']) htie

/-- `pickNext` on a nonempty candidate list returns a candidate. -/
theorem pickNext_mem (f : Nat → ℚ) (c : Nat) (cs : List Nat) :
    pickNext f (c :: cs) ∈ c :: cs := foldl_pick_mem f cs c

/-- `pickNext` minimises the key over the candidate list. -/
theorem pickNext_le (f : Nat → ℚ) (c : Nat) (cs : List Nat) :
    ∀ j ∈ c :: cs, f (pickNext f (c :: cs)) ≤ f j := foldl_pick_le f cs c

/-! ## Lemmas about the nearest-neighbor construction -/

/-- The candidate pool of a step is a sublist of the unvisited pool. -/
theorem nnChoices_sublist (e : Option Nat) (pool : List Nat) :
    (nnChoices e pool).Sublist pool := by
  cases e with
  | none => exact List.Sublist.refl pool
  | some ee =>
    simp only [nnChoices]
    split
    · exact List.filter_sublist pool
    · exact List.Sublist.refl pool

/-- A duplicate-free pool whose elements are all equal to `ee` has at most
one element. -/
theorem nodup_all_eq_length_le (ee : Nat) :
    ∀ (pool : List Nat), pool.Nodup → (∀ x ∈ pool, x = ee) → pool.length ≤ 1 := by
  intro pool hnd hall
  match pool, hnd, hall with
  | [], _, _ => simp
  | [a], _, _ => simp
  | a :: b :: t, hnd, hall =>
    have ha : a = ee := hall a (by simp)
    have hb : b = ee := hall b (by simp)
    have : a ≠ b := by
      have := (List.pairwise_cons.mp hnd).1 b (by simp)
      exact this
    exact absurd (ha.trans hb.symm) this

/-- On a duplicate-free nonempty pool, the candidate pool of a step is
nonempty (Python never calls `min` on an empty set here). -/
theorem nnChoices_ne_nil (e : Option Nat) (pool : List Nat)
    (hnd : pool.Nodup) (hne : pool ≠ []) : nnChoices e pool ≠ [] := by
  cases e with
  | none => simpa [nnChoices]
  | some ee =>
    simp only [nnChoices]
    split
    · next hcond =>
      intro hfil
      have hall : ∀ x ∈ pool, x = ee := by
        intro x hx
        by_contra hxe
        have hmemf : x ∈ pool.filter (fun j => j ≠ ee) :=
          List.mem_filter.mpr ⟨hx, by simpa using hxe⟩
        rw [hfil] at hmemf
        simp at hmemf
      have := nodup_all_eq_length_le ee pool hnd hall
      omega
    · exact hne

/-- The node chosen at one nearest-neighbor step belongs to the pool. -/
theorem nnStep_mem (cost : Nat → Nat → ℚ) (e : Option Nat) (current u : Nat) (us : List Nat) :
    (match nnChoices e (u :: us) with
     | [] => u
     | c :: cs => pickNext (cost current) (c :: cs)) ∈ u :: us := by
  cases hch : nnChoices e (u :: us) with
  | nil => simp
  | cons c cs =>
    have hmem := pickNext_mem (cost current) c cs
    have hsub := nnChoices_sublist e (u :: us)
    rw [hch] at hsub
    exact hsub.subset hmem

/-- The nearest-neighbor loop visits exactly the unvisited pool, in some
order: its output is a permutation of the pool. -/
theorem nnLoop_perm (cost : Nat → Nat → ℚ) (e : Option Nat) :
    ∀ (fuel : Nat) (current : Nat) (pool : List Nat), pool.length ≤ fuel →
      (nnLoop cost e fuel current pool).Perm pool := by
  intro fuel
  induction fuel with
  | zero =>
    intro current pool hlen
    have : pool = [] := List.eq_nil_of_length_eq_zero (Nat.le_zero.mp hlen)
    simp [this, nnLoop]
  | succ fuel ih =>
    intro current pool hlen
    match pool with
    | [] => simp [nnLoop]
    | u :: us =>
      rw [nnLoop]
      have hmem := nnStep_mem cost e current u us
      set next := (match nnChoices e (u :: us) with
        | [] => u
        | c :: cs => pickNext (cost current) (c :: cs)) with hnext
      have hlen' : ((u :: us).erase next).length ≤ fuel := by
        rw [List.length_erase_of_mem hmem]
        simpa using Nat.le_of_succ_le_succ hlen
      have hperm := ih next ((u :: us).erase next) hlen'
      exact (hperm.cons next).trans (List.perm_cons_erase hmem).symm

/-- Specialisation of `getLast?` to a cons with nonempty tail. -/
theorem getLast?_cons_ne_nil {α : Type} (a : α) (l : List α) (h : l ≠ []) :
    (a :: l).getLast? = l.getLast? := by
  cases l with
  | nil => exact absurd rfl h
  | cons b t => simp [List.getLast?_cons_cons]

/-- While the fixed end is still in a duplicate-free pool, the
nearest-neighbor loop keeps it for last. -/
theorem nnLoop_getLast (cost : Nat → Nat → ℚ) (ee : Nat) :
    ∀ (fuel : Nat) (current : Nat) (pool : List Nat), pool.Nodup → ee ∈ pool →
      pool.length ≤ fuel →
      (nnLoop cost (some ee) fuel current pool).getLast? = some ee := by
  intro fuel
  induction fuel with
  | zero =>
    intro current pool _ hee hlen
    have : pool = [] := List.eq_nil_of_length_eq_zero (Nat.le_zero.mp hlen)
    simp [this] at hee
  | succ fuel ih =>
    intro current pool hnd hee hlen
    match pool, hee with
    | u :: us, hee =>
      rw [nnLoop]
      by_cases hlen1 : (u :: us).length = 1
      · -- singleton pool: the only element is `ee`, it is chosen, loop ends
        match us, hlen1 with
        | [], _ =>
          have hu : ee = u := by simpa using hee
          have hloopnil : ∀ cur, nnLoop cost (some ee) fuel cur [] = [] := by
            intro cur; cases fuel <;> simp [nnLoop]
          simp [nnChoices, pickNext, hloopnil, ← hu]
      · -- at least two nodes left: the end is excluded from the choices
        have hlen2 : 1 < (u :: us).length := by
          have : 0 < (u :: us).length := by simp
          omega
        have hch : nnChoices (some ee) (u :: us) = (u :: us).filter (fun j => j ≠ ee) := by
          simp only [nnChoices]
          rw [if_pos ⟨hee, hlen2⟩]
        have hfne : (u :: us).filter (fun j => j ≠ ee) ≠ [] := by
          have := nnChoices_ne_nil (some ee) (u :: us) hnd (by simp)
          rwa [hch] at this
        set next := (match nnChoices (some ee) (u :: us) with
          | [] => u
          | c :: cs => pickNext (cost current) (c :: cs)) with hnext
        have hnext_mem_f : next ∈ (u :: us).filter (fun j => j ≠ ee) := by
          rw [hnext, hch]
          match hf : (u :: us).filter (fun j => j ≠ ee), hfne with
          | c :: cs, _ => exact pickNext_mem (cost current) c cs
        have hnext_mem : next ∈ u :: us := (List.mem_filter.mp hnext_mem_f).1
        have hnext_ne : next ≠ ee := by
          have := (List.mem_filter.mp hnext_mem_f).2
          simpa using this
        have hee_erase : ee ∈ (u :: us).erase next :=
          (List.mem_erase_of_ne (fun h => hnext_ne h.symm)).mpr hee
        have hnd' : ((u :: us).erase next).Nodup := hnd.erase next
        have hlen' : ((u :: us).erase next).length ≤ fuel := by
          rw [List.length_erase_of_mem hnext_mem]
          simpa using Nat.le_of_succ_le_succ hlen
        have htail := ih next ((u :: us).erase next) hnd' hee_erase hlen'
        have htail_ne : nnLoop cost (some ee) fuel next ((u :: us).erase next) ≠ [] := by
          intro hnil; rw [hnil] at htail; simp at htail
        rw [getLast?_cons_ne_nil _ _ htail_ne]
        exact htail

/-- The clamp always lands inside `0..n-1` when `n ≥ 1`. -/
theorem clampIdx_lt (n : Nat) (i : Int) (hn : 1 ≤ n) : clampIdx n i < n := by
  simp only [clampIdx]
  omega

/-- The clamp is the identity on valid indices. -/
theorem clampIdx_of_valid (n : Nat) (i : Int) (h0 : 0 ≤ i) (h : i < (n : Int)) :
    clampIdx n i = i.toNat := by
  simp only [clampIdx]
  omega

/-- The clamp is the identity on a cast valid natural index. -/
theorem clampIdx_cast (n v : Nat) (h : v < n) : clampIdx n (v : Int) = v := by
  simp only [clampIdx]
  omega

/-- For `n ≥ 1` the nearest-neighbor path starts at the clamped start. -/
theorem nearest_neighbor_path_head (n : Nat) (cost : Nat → Nat → ℚ) (start : Int)
    (e : Option Int) (hn : 1 ≤ n) :
    (nearest_neighbor_path n cost start e).head? = some (clampIdx n start) := by
  rw [nearest_neighbor_path, if_neg (by omega)]
  rfl

/-- For `n ≥ 1` the nearest-neighbor path is a permutation of `0..n-1`. -/
theorem nearest_neighbor_path_perm (n : Nat) (cost : Nat → Nat → ℚ) (start : Int)
    (e : Option Int) (hn : 1 ≤ n) :
    (nearest_neighbor_path n cost start e).Perm (List.range n) := by
  rw [nearest_neighbor_path, if_neg (by omega)]
  dsimp only
  have hs : clampIdx n start ∈ List.range n := List.mem_range.mpr (clampIdx_lt n start hn)
  have hlen : ((List.range n).erase (clampIdx n start)).length ≤ n - 1 := by
    rw [List.length_erase_of_mem hs, List.length_range]
  exact ((nnLoop_perm cost _ (n - 1) (clampIdx n start)
    ((List.range n).erase (clampIdx n start)) hlen).cons _).trans
    (List.perm_cons_erase hs).symm

/-- If a fixed end clamps to a node different from the clamped start, the
nearest-neighbor path puts it last (`n ≥ 2`). -/
theorem nearest_neighbor_path_getLast (n : Nat) (cost : Nat → Nat → ℚ) (start : Int)
    (e0 : Int) (ee : Nat) (hn : 2 ≤ n) (hee : ee < n)
    (heq : clampIdx n e0 = ee) (hne : ee ≠ clampIdx n start) :
    (nearest_neighbor_path n cost start (some e0)).getLast? = some ee := by
  rw [nearest_neighbor_path, if_neg (by omega)]
  dsimp only
  rw [heq, if_neg (by simpa using hne)]
  have hs : clampIdx n start ∈ List.range n := List.mem_range.mpr (clampIdx_lt n start (by omega))
  have hee_mem : ee ∈ (List.range n).erase (clampIdx n start) :=
    (List.mem_erase_of_ne hne).mpr (List.mem_range.mpr hee)
  have hnd : ((List.range n).erase (clampIdx n start)).Nodup := (List.nodup_range n).erase _
  have hlen : ((List.range n).erase (clampIdx n start)).length ≤ n - 1 := by
    rw [List.length_erase_of_mem hs, List.length_range]
  have hlast := nnLoop_getLast cost ee (n - 1) (clampIdx n start)
    ((List.range n).erase (clampIdx n start)) hnd hee_mem hlen
  have hne_nil : nnLoop cost (some ee) (n - 1) (clampIdx n start)
      ((List.range n).erase (clampIdx n start)) ≠ [] := by
    intro hnil; rw [hnil] at hlast; simp at hlast
  rw [getLast?_cons_ne_nil _ _ hne_nil]
  exact hlast

/-! ## Lemmas about the 2-Opt refiner -/

/-- A 2-Opt candidate is a permutation of the path it rearranges. -/
theorem twoOptCandidate_perm (best : List Nat) (i k : Nat) (h : i ≤ k + 1) :
    (twoOptCandidate best i k).Perm best := by
  rw [twoOptCandidate, List.append_assoc]
  have hdd : (best.drop i).drop (k + 1 - i) = best.drop (k + 1) := by
    rw [List.drop_drop]
    congr 1
    omega
  have h1 : (best.take i ++ (((best.drop i).take (k + 1 - i)).reverse ++ best.drop (k + 1))).Perm
      (best.take i ++ ((best.drop i).take (k + 1 - i) ++ best.drop (k + 1))) :=
    List.Perm.append_left _ (List.Perm.append_right _ (List.reverse_perm _))
  have h2 : best.take i ++ ((best.drop i).take (k + 1 - i) ++ best.drop (k + 1)) = best := by
    rw [← hdd, List.take_append_drop, List.take_append_drop]
  conv_rhs => rw [← h2]
  exact h1

/-- The bounds of the 2-Opt scan: `startI ≤ i < k` and `k ≤ n - 2`. -/
theorem scanPairs_mem (startI n i k : Nat) (h : (i, k) ∈ scanPairs startI n) :
    startI ≤ i ∧ i + 1 ≤ k ∧ k + 1 < n := by
  simp only [scanPairs, List.mem_flatMap, List.mem_map] at h
  obtain ⟨a, ha, b, hb, heq⟩ := h
  obtain ⟨rfl, rfl⟩ := Prod.mk.injEq .. ▸ heq
  rw [List.mem_range'_1] at ha hb
  omega

/-- What a successful scan returns: the first improving candidate, its
exact path cost, and the strict `EPS` improvement over the incumbent. -/
theorem findImprovement_spec (cost : Nat → Nat → ℚ) (best : List Nat) (bc : ℚ) :
    ∀ (pairs : List (Nat × Nat)) (cand : List Nat) (cc : ℚ),
      findImprovement cost best bc pairs = some (cand, cc) →
      (∃ p ∈ pairs, cand = twoOptCandidate best p.1 p.2) ∧
        cc = path_cost cost cand ∧ cc + EPS < bc := by
  intro pairs
  induction pairs with
  | nil => intro cand cc h; simp [findImprovement] at h
  | cons p rest ih =>
    intro cand cc h
    obtain ⟨i, k⟩ := p
    rw [findImprovement] at h
    by_cases hik : k - i < 1
    · rw [if_pos hik] at h
      obtain ⟨⟨q, hq, hcand⟩, hcc, hlt⟩ := ih cand cc h
      exact ⟨⟨q, by simp [hq], hcand⟩, hcc, hlt⟩
    · rw [if_neg hik] at h
      by_cases himp : path_cost cost (twoOptCandidate best i k) + EPS < bc
      · rw [if_pos himp] at h
        simp only [Option.some.injEq, Prod.mk.injEq] at h
        obtain ⟨hcand, hcc⟩ := h
        refine ⟨⟨(i, k), by simp, hcand.symm⟩, ?_, ?_⟩
        · rw [← hcand, ← hcc]
        · rw [← hcc]; exact hcand ▸ himp
      · rw [if_neg himp] at h
        obtain ⟨⟨q, hq, hcand⟩, hcc, hlt⟩ := ih cand cc h
        exact ⟨⟨q, by simp [hq], hcand⟩, hcc, hlt⟩

/-- Every iterate of the 2-Opt loop is a permutation of its input path. -/
theorem twoOptLoop_perm (cost : Nat → Nat → ℚ) (startI n : Nat) :
    ∀ (fuel : Nat) (best : List Nat) (bc : ℚ),
      (twoOptLoop cost startI n fuel best bc).Perm best := by
  intro fuel
  induction fuel with
  | zero => intro best bc; simp [twoOptLoop]
  | succ fuel ih =>
    intro best bc
    rw [twoOptLoop]
    cases hfi : findImprovement cost best bc (scanPairs startI n) with
    | none => exact List.Perm.refl best
    | some pr =>
      obtain ⟨cand, cc⟩ := pr
      obtain ⟨⟨p, hp, hcand⟩, _, _⟩ := findImprovement_spec cost best bc _ cand cc hfi
      obtain ⟨i, k⟩ := p
      obtain ⟨hsi, hik, hkn⟩ := scanPairs_mem startI n i k hp
      have hperm : cand.Perm best := hcand ▸ twoOptCandidate_perm best i k (by omega)
      exact (ih cand cc).trans hperm

/-- The epsilon guard is strictly positive. -/
theorem EPS_pos : 0 < EPS := by norm_num [EPS]

/-- The 2-Opt loop never worsens: the final path cost stays below any bound
the incumbent cost satisfies. -/
theorem twoOptLoop_cost (cost : Nat → Nat → ℚ) (startI n : Nat) :
    ∀ (fuel : Nat) (best : List Nat) (bc : ℚ), path_cost cost best ≤ bc →
      path_cost cost (twoOptLoop cost startI n fuel best bc) ≤ bc := by
  intro fuel
  induction fuel with
  | zero => intro best bc hle; simpa [twoOptLoop] using hle
  | succ fuel ih =>
    intro best bc hle
    rw [twoOptLoop]
    cases hfi : findImprovement cost best bc (scanPairs startI n) with
    | none => exact hle
    | some pr =>
      obtain ⟨cand, cc⟩ := pr
      obtain ⟨_, hcc, hlt⟩ := findImprovement_spec cost best bc _ cand cc hfi
      have hccle : path_cost cost cand ≤ cc := le_of_eq hcc.symm
      have : cc < bc := by
        have := EPS_pos
        linarith
      exact (ih cand cc hccle).trans this.le

/-- The head survives `take i` for `i ≥ 1`. -/
theorem head?_take (l : List Nat) (i : Nat) (hi : 1 ≤ i) : (l.take i).head? = l.head? := by
  cases l with
  | nil => simp
  | cons a t =>
    match i, hi with
    | i + 1, _ => simp

/-- A 2-Opt candidate with `i ≥ 1` keeps the first element in place. -/
theorem twoOptCandidate_head (best : List Nat) (i k : Nat) (hi : 1 ≤ i) (hne : best ≠ []) :
    (twoOptCandidate best i k).head? = best.head? := by
  have htake : best.take i ≠ [] := by
    intro h
    have := head?_take best i hi
    rw [h] at this
    cases best with
    | nil => exact hne rfl
    | cons a t => simp at this
  rw [twoOptCandidate, List.append_assoc, List.head?_append_of_ne_nil _ htake]
  exact head?_take best i hi

/-- The last element survives `drop m` for `m < length`. -/
theorem getLast?_drop_lt (l : List Nat) (m : Nat) (h : m < l.length) :
    (l.drop m).getLast? = l.getLast? := by
  have hne : l.drop m ≠ [] := by
    intro hnil
    have hlen := congrArg List.length hnil
    simp at hlen
    omega
  conv_rhs => rw [← List.take_append_drop m l]
  rw [List.getLast?_append_of_ne_nil _ hne]

/-- A 2-Opt candidate with `k + 1 < length` keeps the last element in
place: the reversal bounds never reach the final slot. -/
theorem twoOptCandidate_getLast (best : List Nat) (i k : Nat) (h : k + 1 < best.length) :
    (twoOptCandidate best i k).getLast? = best.getLast? := by
  have hC : best.drop (k + 1) ≠ [] := by
    simp only [ne_eq, List.drop_eq_nil_iff]
    omega
  have hBC : ((best.drop i).take (k + 1 - i)).reverse ++ best.drop (k + 1) ≠ [] := by
    intro hh
    exact hC (List.append_eq_nil.mp hh).2
  rw [twoOptCandidate, List.append_assoc, List.getLast?_append_of_ne_nil _ hBC,
    List.getLast?_append_of_ne_nil _ hC]
  exact getLast?_drop_lt best (k + 1) h

/-- With `startI ≥ 1` (a fixed start) the 2-Opt loop never moves the first
element. -/
theorem twoOptLoop_head (cost : Nat → Nat → ℚ) (startI n : Nat) (hsi : 1 ≤ startI) :
    ∀ (fuel : Nat) (best : List Nat) (bc : ℚ), best ≠ [] →
      (twoOptLoop cost startI n fuel best bc).head? = best.head? := by
  intro fuel
  induction fuel with
  | zero => intro best bc _; simp [twoOptLoop]
  | succ fuel ih =>
    intro best bc hne
    rw [twoOptLoop]
    cases hfi : findImprovement cost best bc (scanPairs startI n) with
    | none => rfl
    | some pr =>
      obtain ⟨cand, cc⟩ := pr
      obtain ⟨⟨p, hp, hcand⟩, _, _⟩ := findImprovement_spec cost best bc _ cand cc hfi
      obtain ⟨i, k⟩ := p
      obtain ⟨hsi', hik, hkn⟩ := scanPairs_mem startI n i k hp
      have hcand_perm : cand.Perm best := hcand ▸ twoOptCandidate_perm best i k (by omega)
      have hcand_ne : cand ≠ [] := by
        intro hh
        rw [hh] at hcand_perm
        exact hne hcand_perm.nil_eq.symm
      rw [ih cand cc hcand_ne, hcand]
      exact twoOptCandidate_head best i k (by omega) hne

/-- When the scan geometry matches the path length, the 2-Opt loop never
moves the last element. -/
theorem twoOptLoop_getLast (cost : Nat → Nat → ℚ) (startI n : Nat) :
    ∀ (fuel : Nat) (best : List Nat) (bc : ℚ), best.length = n →
      (twoOptLoop cost startI n fuel best bc).getLast? = best.getLast? := by
  intro fuel
  induction fuel with
  | zero => intro best bc _; simp [twoOptLoop]
  | succ fuel ih =>
    intro best bc hlen
    rw [twoOptLoop]
    cases hfi : findImprovement cost best bc (scanPairs startI n) with
    | none => rfl
    | some pr =>
      obtain ⟨cand, cc⟩ := pr
      obtain ⟨⟨p, hp, hcand⟩, _, _⟩ := findImprovement_spec cost best bc _ cand cc hfi
      obtain ⟨i, k⟩ := p
      obtain ⟨hsi', hik, hkn⟩ := scanPairs_mem startI n i k hp
      have hcand_perm : cand.Perm best := hcand ▸ twoOptCandidate_perm best i k (by omega)
      have hcand_len : cand.length = n := by rw [hcand_perm.length_eq, hlen]
      rw [ih cand cc hcand_len, hcand]
      exact twoOptCandidate_getLast best i k (by omega)

/-- `two_opt_improve` returns a permutation of its input path. -/
theorem two_opt_improve_perm (cost : Nat → Nat → ℚ) (order : List Nat)
    (fixed_start : Bool) (max_iter : Nat) :
    (two_opt_improve cost order fixed_start max_iter).Perm order := by
  rw [two_opt_improve]
  split
  · exact List.Perm.refl order
  · exact twoOptLoop_perm cost _ _ max_iter order _

/-- `two_opt_improve` never worsens the path cost. -/
theorem two_opt_improve_cost (cost : Nat → Nat → ℚ) (order : List Nat)
    (fixed_start : Bool) (max_iter : Nat) :
    path_cost cost (two_opt_improve cost order fixed_start max_iter) ≤
      path_cost cost order := by
  rw [two_opt_improve]
  split
  · exact le_refl _
  · exact twoOptLoop_cost cost _ _ max_iter order _ (le_refl _)

/-- With a fixed start, `two_opt_improve` keeps the first element. -/
theorem two_opt_improve_head (cost : Nat → Nat → ℚ) (order : List Nat) (max_iter : Nat) :
    (two_opt_improve cost order true max_iter).head? = order.head? := by
  rw [two_opt_improve]
  split
  · rfl
  · next hlen =>
    have hne : order ≠ [] := by
      intro h
      rw [h] at hlen
      simp at hlen
    exact twoOptLoop_head cost _ _ (by simp) max_iter order _ hne

/-- `two_opt_improve` keeps the last element. -/
theorem two_opt_improve_getLast (cost : Nat → Nat → ℚ) (order : List Nat)
    (fixed_start : Bool) (max_iter : Nat) :
    (two_opt_improve cost order fixed_start max_iter).getLast? = order.getLast? := by
  rw [two_opt_improve]
  split
  · rfl
  · exact twoOptLoop_getLast cost _ _ max_iter order _ rfl

/-! ## Lemmas about the optimizer core -/

/-- `pickNext` on any nonempty list returns one of its elements. -/
theorem pickNext_mem' (f : Nat → ℚ) (l : List Nat) (h : l ≠ []) : pickNext f l ∈ l := by
  cases l with
  | nil => exact absurd rfl h
  | cons c cs => exact pickNext_mem f c cs

/-- For `n ≥ 2`, removing one value from `0..n-1` leaves a candidate. -/
theorem filter_ne_ne_nil (n v : Nat) (hn : 2 ≤ n) :
    (List.range n).filter (fun i => i ≠ v) ≠ [] := by
  intro hnil
  have h0 : (0 : Nat) ∈ List.range n := List.mem_range.mpr (by omega)
  have h1 : (1 : Nat) ∈ List.range n := List.mem_range.mpr (by omega)
  have hall : ∀ x ∈ List.range n, x = v := by
    intro x hx
    by_contra hxv
    have : x ∈ (List.range n).filter (fun i => i ≠ v) :=
      List.mem_filter.mpr ⟨hx, by simpa using hxv⟩
    rw [hnil] at this
    simp at this
  have := hall 0 h0
  have := hall 1 h1
  omega

/-- The optimizer core always returns a permutation of `0..n-1`. -/
theorem optimize_core_perm (n : Nat) (cost : Nat → Nat → ℚ)
    (s? e? : Option Int) : (optimize_core n cost s? e?).order.Perm (List.range n) := by
  rw [optimize_core]
  split
  · exact List.Perm.refl _
  · next hn =>
    dsimp only
    exact (two_opt_improve_perm cost _ _ 2000).trans
      (nearest_neighbor_path_perm n cost _ _ (by omega))

/-- With a valid fixed start index, the optimizer core puts it first. -/
theorem optimize_core_head (n : Nat) (cost : Nat → Nat → ℚ) (s : Int) (e? : Option Int)
    (h0 : 0 ≤ s) (hs : s < (n : Int)) :
    (optimize_core n cost (some s) e?).order.head? = some s.toNat := by
  rw [optimize_core]
  split
  · next hn =>
    -- n ≤ 1 and 0 ≤ s < n force n = 1 and s = 0
    have hn1 : n = 1 := by omega
    have hs0 : s.toNat = 0 := by omega
    subst hn1
    simp only [hs0]
    decide
  · next hn =>
    dsimp only
    have hclt : clampIdx n s < n := clampIdx_lt n s (by omega)
    rw [two_opt_improve_head, nearest_neighbor_path_head n cost _ _ (by omega)]
    rw [clampIdx_cast n (clampIdx n s) hclt, clampIdx_of_valid n s h0 hs]

/-- With a valid fixed end index that differs from the resolved start, the
optimizer core puts the end last. -/
theorem optimize_core_last (n : Nat) (cost : Nat → Nat → ℚ) (s? : Option Int) (e : Int)
    (hn : 2 ≤ n) (h0 : 0 ≤ e) (he : e < (n : Int))
    (hdist : ∀ s, s? = some s → clampIdx n s ≠ e.toNat) :
    (optimize_core n cost s? (some e)).order.getLast? = some e.toNat := by
  rw [optimize_core, if_neg (by omega)]
  have hetn : e.toNat < n := by omega
  cases s? with
  | some s =>
    have hne : clampIdx n s ≠ e.toNat := hdist s rfl
    dsimp only
    try simp only [Option.map_some']
    rw [clampIdx_of_valid n e h0 he]
    rw [if_neg (fun hh => hne (Option.some.inj hh).symm)]
    try simp only [Option.map_some']
    rw [two_opt_improve_getLast]
    exact nearest_neighbor_path_getLast n cost _ _ e.toNat hn hetn
      (clampIdx_cast n e.toNat hetn)
      (by rw [clampIdx_cast n (clampIdx n s) (clampIdx_lt n s (by omega))]
          exact fun hh => hne hh.symm)
  | none =>
    dsimp only
    try simp only [Option.map_some']
    rw [clampIdx_of_valid n e h0 he]
    rw [if_neg (by omega)]
    have hfil := filter_ne_ne_nil n e.toNat hn
    have hstart_mem := pickNext_mem' (rowSum n cost) _ hfil
    have hstart_f := List.mem_filter.mp hstart_mem
    have hstart_lt :
        pickNext (rowSum n cost) ((List.range n).filter (fun i => i ≠ e.toNat)) < n :=
      List.mem_range.mp hstart_f.1
    have hstart_ne :
        pickNext (rowSum n cost) ((List.range n).filter (fun i => i ≠ e.toNat)) ≠ e.toNat :=
      of_decide_eq_true hstart_f.2
    rw [if_neg (fun hh => hstart_ne (Option.some.inj hh).symm)]
    try simp only [Option.map_some']
    rw [two_opt_improve_getLast]
    exact nearest_neighbor_path_getLast n cost _ _ e.toNat hn hetn
      (clampIdx_cast n e.toNat hetn)
      (by rw [clampIdx_cast n _ hstart_lt]; exact fun hh => hstart_ne hh.symm)

/-- A fixed end equal (after clamping) to the fixed start is dropped: the
optimizer core behaves exactly as if no end had been given
(`src/optimizer.py` lines 171-172). -/
theorem optimize_core_drop_end (n : Nat) (cost : Nat → Nat → ℚ) (s e : Int)
    (h : clampIdx n s = clampIdx n e) :
    optimize_core n cost (some s) (some e) = optimize_core n cost (some s) none := by
  rw [optimize_core, optimize_core]
  split
  · rfl
  · dsimp only
    simp only [Option.map_some']
    rw [← h, if_pos rfl]
    simp

/-! ## Lemmas about the day packing engine -/

/-- Packing one day never grows the remaining queue. -/
theorem packDay_rest_len (pk : String) (segMap : Nat → Nat → ℚ) (cap : ℚ) :
    ∀ (queue : List Stop) (prev : Option Nat) (active : ℚ) (acc : List PackedItem),
      (packDay pk segMap cap queue prev active acc).2.1.length ≤ queue.length := by
  intro queue
  induction queue with
  | nil => intro prev active acc; simp [packDay]
  | cons s rest ih =>
    intro prev active acc
    rw [packDay]
    split
    · simp
    · exact (ih _ _ _).trans (by simp)

/-- Packing one day conserves stops: committed plus remaining equals
carried plus queued. -/
theorem packDay_count (pk : String) (segMap : Nat → Nat → ℚ) (cap : ℚ) :
    ∀ (queue : List Stop) (prev : Option Nat) (active : ℚ) (acc : List PackedItem),
      (packDay pk segMap cap queue prev active acc).1.length +
        (packDay pk segMap cap queue prev active acc).2.1.length =
        acc.length + queue.length := by
  intro queue
  induction queue with
  | nil => intro prev active acc; simp [packDay]
  | cons s rest ih =>
    intro prev active acc
    rw [packDay]
    split
    · simp
    · have := ih (some s.locId)
        (active + (travel_of segMap prev s + (estimate_visit_min pk s.category : ℚ)))
        (⟨s, travel_of segMap prev s, (estimate_visit_min pk s.category : ℚ)⟩ :: acc)
      simp only [List.length_cons] at this ⊢
      omega

/-- A day packed from a nonempty queue or nonempty carry is nonempty. -/
theorem packDay_ne_nil (pk : String) (segMap : Nat → Nat → ℚ) (cap : ℚ) :
    ∀ (queue : List Stop) (prev : Option Nat) (active : ℚ) (acc : List PackedItem),
      queue ≠ [] ∨ acc ≠ [] → (packDay pk segMap cap queue prev active acc).1 ≠ [] := by
  intro queue
  induction queue with
  | nil =>
    intro prev active acc h
    rcases h with h | h
    · exact absurd rfl h
    · simpa [packDay] using h
  | cons s rest ih =>
    intro prev active acc h
    rw [packDay]
    split
    · next hcond => simpa using hcond.1
    · exact ih _ _ _ (Or.inr (by simp))

/-- Invariant of the inner packing loop: if the finished day holds at least
two stops, its active time passed the budget test at its last commit, so it
is at most `cap`. -/
theorem packDay_bound (pk : String) (segMap : Nat → Nat → ℚ) (cap : ℚ) :
    ∀ (queue : List Stop) (prev : Option Nat) (active : ℚ) (acc : List PackedItem),
      active = daySteps acc → (2 ≤ acc.length → active ≤ cap) →
      2 ≤ (packDay pk segMap cap queue prev active acc).1.length →
      daySteps (packDay pk segMap cap queue prev active acc).1 ≤ cap := by
  intro queue
  induction queue with
  | nil =>
    intro prev active acc hact hinv hlen
    rw [packDay] at hlen ⊢
    simp only at hlen ⊢
    have hsum : daySteps acc.reverse = daySteps acc := by
      rw [daySteps, daySteps, List.map_reverse, List.sum_reverse]
    rw [hsum, ← hact]
    exact hinv (by simpa using hlen)
  | cons s rest ih =>
    intro prev active acc hact hinv hlen
    rw [packDay] at hlen ⊢
    split at hlen
    · next hcond =>
      split
      · simp only at hlen ⊢
        have hsum : daySteps acc.reverse = daySteps acc := by
          rw [daySteps, daySteps, List.map_reverse, List.sum_reverse]
        rw [hsum, ← hact]
        exact hinv (by simpa using hlen)
      · next hcond2 => exact absurd hcond hcond2
    · next hcond =>
      split
      · next hcond2 => exact absurd hcond2 hcond
      · push_neg at hcond
        refine ih _ _ _ ?_ ?_ hlen
        · rw [daySteps, List.map_cons, List.sum_cons, ← daySteps, ← hact]
          ring
        · intro h2
          have hacc : acc ≠ [] := by
            intro hnil
            rw [hnil] at h2
            simp at h2
          exact hcond hacc

/-- Across the outer loop: every produced day is nonempty, the stop counts
sum to the queue length, and every day with at least two stops respects the
`cap` budget. -/
theorem packDaysAux_spec (pk : String) (segMap : Nat → Nat → ℚ) (cap : ℚ) :
    ∀ (fuel : Nat) (queue : List Stop) (prev : Option Nat), queue.length ≤ fuel →
      (((packDaysAux pk segMap cap fuel queue prev).map
          (fun d => d.length)).sum = queue.length ∧
       (∀ d ∈ packDaysAux pk segMap cap fuel queue prev, d ≠ []) ∧
       (∀ d ∈ packDaysAux pk segMap cap fuel queue prev,
          2 ≤ d.length → daySteps d ≤ cap)) := by
  intro fuel
  induction fuel with
  | zero =>
    intro queue prev hlen
    have : queue = [] := List.eq_nil_of_length_eq_zero (Nat.le_zero.mp hlen)
    subst this
    simp [packDaysAux]
  | succ fuel ih =>
    intro queue prev hlen
    match queue with
    | [] => simp [packDaysAux]
    | s :: rest =>
      rw [packDaysAux]
      have hday_ne := packDay_ne_nil pk segMap cap (s :: rest) prev 0 [] (Or.inl (by simp))
      have hcount := packDay_count pk segMap cap (s :: rest) prev 0 []
      simp only [List.length_nil, Nat.zero_add] at hcount
      have hday_len : 1 ≤ (packDay pk segMap cap (s :: rest) prev 0 []).1.length := by
        cases hd : (packDay pk segMap cap (s :: rest) prev 0 []).1 with
        | nil => exact absurd hd hday_ne
        | cons a t => simp
      have hrest_len : (packDay pk segMap cap (s :: rest) prev 0 []).2.1.length ≤ fuel := by
        have := hlen
        simp only [List.length_cons] at this
        omega
      obtain ⟨ihsum, ihne, ihbound⟩ := ih (packDay pk segMap cap (s :: rest) prev 0 []).2.1
        (packDay pk segMap cap (s :: rest) prev 0 []).2.2 hrest_len
      refine ⟨?_, ?_, ?_⟩
      · simp only [List.map_cons, List.sum_cons, ihsum]
        simp only [List.length_cons] at hcount ⊢
        omega
      · intro d hd
        rcases List.mem_cons.mp hd with rfl | hd'
        · exact hday_ne
        · exact ihne d hd'
      · intro d hd h2
        rcases List.mem_cons.mp hd with rfl | hd'
        · exact packDay_bound pk segMap cap (s :: rest) prev 0 []
            (by simp [daySteps]) (by intro h; simp at h) h2
        · exact ihbound d hd' h2

/-- `packDays` conserves stops, produces only nonempty days, and every
multi-stop day respects the budget. -/
theorem packDays_spec (pk : String) (segMap : Nat → Nat → ℚ) (cap : ℚ)
    (queue : List Stop) :
    ((packDays pk segMap cap queue).map (fun d => d.length)).sum = queue.length ∧
    (∀ d ∈ packDays pk segMap cap queue, d ≠ []) ∧
    (∀ d ∈ packDays pk segMap cap queue, 2 ≤ d.length → daySteps d ≤ cap) :=
  packDaysAux_spec pk segMap cap queue.length queue none (le_refl _)

/-- Stretching changes visit minutes only: the day keeps its stop count. -/
theorem finalizeDay_len (target : ℚ) (dn : Nat) (items : List PackedItem) :
    (finalizeDay target dn items).locations.length = items.length := by
  rw [finalizeDay]
  dsimp only
  rw [List.length_map]
  split
  · rw [List.length_map]
  · rfl

/-- A finalized nonempty day stays nonempty. -/
theorem finalizeDay_ne_nil (target : ℚ) (dn : Nat) (items : List PackedItem)
    (h : items ≠ []) : (finalizeDay target dn items).locations ≠ [] := by
  intro hnil
  have hlen := finalizeDay_len target dn items
  rw [hnil] at hlen
  simp only [List.length_nil] at hlen
  exact h (List.eq_nil_of_length_eq_zero hlen.symm)

/-- Recomputed days carry exactly the given location payloads. -/
theorem recompute_day_locations (d : DayPlan) (locs : List DayLoc) :
    (recompute_day d locs).locations = locs := rfl

/-- Finalizing the numbered days keeps the per-day stop counts. -/
theorem enumFrom_finalize_counts (target : ℚ) :
    ∀ (l : List (List PackedItem)) (k : Nat),
      ((List.enumFrom k l).map
        (fun p => (finalizeDay target (p.1 + 1) p.2).locations.length)).sum =
      (l.map (fun d => d.length)).sum := by
  intro l
  induction l with
  | nil => intro k; rfl
  | cons d t ih =>
    intro k
    rw [List.enumFrom, List.map_cons, List.sum_cons, List.map_cons, List.sum_cons,
      finalizeDay_len, ih (k + 1)]

/-- Finalizing the numbered days keeps every day nonempty. -/
theorem enumFrom_finalize_ne_nil (target : ℚ) :
    ∀ (l : List (List PackedItem)) (k : Nat), (∀ d ∈ l, d ≠ []) →
      ∀ d ∈ (List.enumFrom k l).map (fun p => finalizeDay target (p.1 + 1) p.2),
        d.locations ≠ [] := by
  intro l
  induction l with
  | nil => intro k _ d hd; simp [List.enumFrom] at hd
  | cons x t ih =>
    intro k hall d hd
    simp only [List.enumFrom, List.map_cons] at hd
    rcases List.mem_cons.mp hd with rfl | hd'
    · exact finalizeDay_ne_nil target (k + 1) x (hall x (by simp))
    · exact ih (k + 1) (fun e he => hall e (by simp [he])) d hd'

/-- The equalization pass conserves the total stop count. -/
theorem equalize_days_counts (target : ℚ) (days : List DayPlan) :
    ((equalize_days target days).map (fun d => d.locations.length)).sum =
      (days.map (fun d => d.locations.length)).sum := by
  rw [equalize_days]
  cases hrev : days.reverse with
  | nil => rfl
  | cons last rest =>
    cases rest with
    | nil => rfl
    | cons prev rev_front =>
      dsimp only
      split
      · next hcond =>
        cases hlrev : prev.locations.reverse with
        | nil => rfl
        | cons shifted prev_rest_rev =>
          dsimp only
          have hdays : days = (last :: prev :: rev_front).reverse := by
            rw [← hrev, List.reverse_reverse]
          have hplen := congrArg List.length hlrev
          simp only [List.length_reverse, List.length_cons] at hplen
          rw [hdays]
          simp only [List.map_reverse, List.sum_reverse, List.map_cons, List.sum_cons,
            recompute_day_locations, List.length_cons, List.length_reverse]
          omega
      · rfl

/-- The equalization pass keeps every day nonempty. -/
theorem equalize_days_ne_nil (target : ℚ) (days : List DayPlan)
    (h : ∀ d ∈ days, d.locations ≠ []) :
    ∀ d ∈ equalize_days target days, d.locations ≠ [] := by
  rw [equalize_days]
  cases hrev : days.reverse with
  | nil => exact h
  | cons last rest =>
    cases rest with
    | nil => exact h
    | cons prev rev_front =>
      dsimp only
      split
      · next hcond =>
        cases hlrev : prev.locations.reverse with
        | nil => exact h
        | cons shifted prev_rest_rev =>
          dsimp only
          have hdays : days = (last :: prev :: rev_front).reverse := by
            rw [← hrev, List.reverse_reverse]
          have hplen := congrArg List.length hlrev
          simp only [List.length_reverse, List.length_cons] at hplen
          intro d hd
          rw [List.mem_reverse] at hd
          rcases List.mem_cons.mp hd with rfl | hd'
          · rw [recompute_day_locations]
            simp
          · rcases List.mem_cons.mp hd' with rfl | hd''
            · rw [recompute_day_locations]
              intro hnil
              have := congrArg List.length hnil
              simp only [List.length_reverse, List.length_nil] at this
              omega
            · refine h d ?_
              rw [hdays, List.mem_reverse]
              simp [hd'']
      · exact h

/-- The full day-building pipeline conserves the stop count. -/
theorem build_days_counts (pace : String) (segMap : Nat → Nat → ℚ) (queue : List Stop) :
    ((build_days pace segMap queue).map (fun d => d.locations.length)).sum = queue.length := by
  rw [build_days]
  rw [equalize_days_counts, List.map_map]
  have hcomp : ((fun d : DayPlan => d.locations.length) ∘
      (fun p : Nat × List PackedItem =>
        finalizeDay (day_budget_min (pace_key_of pace)) (p.1 + 1) p.2)) =
      (fun p : Nat × List PackedItem =>
        (finalizeDay (day_budget_min (pace_key_of pace)) (p.1 + 1) p.2).locations.length) := rfl
  rw [hcomp]
  rw [show (packDays (pace_key_of pace) segMap (day_budget_min (pace_key_of pace) + tolerance_min) queue).enum =
      List.enumFrom 0 (packDays (pace_key_of pace) segMap
        (day_budget_min (pace_key_of pace) + tolerance_min) queue) from rfl]
  rw [enumFrom_finalize_counts]
  exact (packDays_spec (pace_key_of pace) segMap
    (day_budget_min (pace_key_of pace) + tolerance_min) queue).1

/-- The full day-building pipeline produces only nonempty days. -/
theorem build_days_ne_nil (pace : String) (segMap : Nat → Nat → ℚ) (queue : List Stop) :
    ∀ d ∈ build_days pace segMap queue, d.locations ≠ [] := by
  rw [build_days]
  apply equalize_days_ne_nil
  rw [show (packDays (pace_key_of pace) segMap (day_budget_min (pace_key_of pace) + tolerance_min) queue).enum =
      List.enumFrom 0 (packDays (pace_key_of pace) segMap
        (day_budget_min (pace_key_of pace) + tolerance_min) queue) from rfl]
  exact enumFrom_finalize_ne_nil (day_budget_min (pace_key_of pace)) _ 0
    (packDays_spec (pace_key_of pace) segMap
      (day_budget_min (pace_key_of pace) + tolerance_min) queue).2.1

/-! ## Lemmas about the cost matrix validator -/

/-- Unpacking a successful conversion. -/
theorem to_cost_matrix_ok (m : RawMatrix) (cm : List (List (WithTop ℚ)))
    (h : to_cost_matrix m = .ok cm) : cm = m.map (fun r => r.map toCostVal) := by
  rw [to_cost_matrix] at h
  split at h
  · exact (Except.ok.inj h).symm
  · exact absurd h (by simp)

/-- Cell-level description of the conversion: every cell of the converted
matrix is the `toCostVal` image of the raw cell, so missing cells become
the infinite sentinel. -/
theorem to_cost_matrix_cell (m : RawMatrix) (cm : List (List (WithTop ℚ)))
    (h : to_cost_matrix m = .ok cm) (i j : Nat) :
    (cm.get? i).bind (fun r => r.get? j) =
      ((m.get? i).bind (fun r => r.get? j)).map toCostVal := by
  rw [to_cost_matrix_ok m cm h, List.get?_map]
  cases m.get? i with
  | none => rfl
  | some row => simp [List.get?_map]

/-- A converted cell is the sentinel exactly when the raw cell was
missing. -/
theorem toCostVal_eq_top_iff (c : Option ℚ) : toCostVal c = ⊤ ↔ c = none := by
  cases c with
  | none => simp [toCostVal]
  | some q => simp [toCostVal]

/-- For a nonempty raw matrix, the validation pipeline succeeds exactly
when the matrix is square (every row as long as the row count) and no cell
is missing. -/
theorem validate_durations_iff (m : RawMatrix) (hne : m ≠ []) :
    validate_durations m = .ok () ↔
      ((∀ r ∈ m, r.length = m.length) ∧ ∀ r ∈ m, ∀ c ∈ r, c ≠ none) := by
  rw [validate_durations]
  cases hconv : to_cost_matrix m with
  | error e =>
    simp only
    constructor
    · intro h
      exact absurd h (by simp)
    · rintro ⟨hsq, -⟩
      exfalso
      have hall : m.all (fun r => r.length = (m.headD []).length) = true := by
        rw [List.all_eq_true]
        intro r hr
        match m, hne, hr with
        | r0 :: t, _, hr =>
          have h0 := hsq r0 (by simp)
          have hr' := hsq r hr
          simp only [List.headD_cons]
          exact decide_eq_true (by omega)
      rw [to_cost_matrix, if_pos hall] at hconv
      exact absurd hconv (by simp)
  | ok cm =>
    have hcm := to_cost_matrix_ok m cm hconv
    subst hcm
    simp only
    rw [validate_full_matrix]
    have hlen : (m.map (fun r => r.map toCostVal)).length = m.length := List.length_map m _
    have hsq_iff : ((m.map (fun r => r.map toCostVal)).all
        (fun r => r.length = (m.map (fun r => r.map toCostVal)).length) = true) ↔
        (∀ r ∈ m, r.length = m.length) := by
      rw [List.all_eq_true]
      constructor
      · intro h r hr
        have := h (r.map toCostVal) (List.mem_map_of_mem _ hr)
        rw [hlen] at this
        simpa using this
      · intro h r' hr'
        obtain ⟨r, hr, rfl⟩ := List.mem_map.mp hr'
        rw [hlen]
        exact decide_eq_true (by simpa using h r hr)
    have hany_iff : ((m.map (fun r => r.map toCostVal)).any
        (fun r => r.any (fun c => c = ⊤)) = true) ↔
        ¬ (∀ r ∈ m, ∀ c ∈ r, c ≠ none) := by
      rw [List.any_eq_true]
      constructor
      · rintro ⟨r', hr', hany⟩ hmiss
        obtain ⟨r, hr, rfl⟩ := List.mem_map.mp hr'
        rw [List.any_eq_true] at hany
        obtain ⟨c', hc', htop⟩ := hany
        obtain ⟨c, hc, rfl⟩ := List.mem_map.mp hc'
        have : c = none := (toCostVal_eq_top_iff c).mp (by simpa using htop)
        exact hmiss r hr c hc this
      · intro hmiss
        push_neg at hmiss
        obtain ⟨r, hr, c, hc, hcnone⟩ := hmiss
        refine ⟨r.map toCostVal, List.mem_map_of_mem _ hr, ?_⟩
        rw [List.any_eq_true]
        refine ⟨toCostVal c, List.mem_map_of_mem _ hc, ?_⟩
        subst hcnone
        simp [toCostVal]
    by_cases hsq : ∀ r ∈ m, r.length = m.length
    · rw [if_neg]
      · rw [if_neg (by simpa [hlen] using hne)]
        by_cases hmiss : ∀ r ∈ m, ∀ c ∈ r, c ≠ none
        · rw [if_neg (by rw [hany_iff]; exact not_not_intro hmiss)]
          constructor
          · intro _
            exact ⟨hsq, hmiss⟩
          · intro _
            rfl
        · rw [if_pos (by rw [hany_iff]; exact hmiss)]
          constructor
          · intro h
            exact absurd h (by simp)
          · rintro ⟨-, h2⟩
            exact absurd h2 hmiss
      · rintro (h0 | hbad)
        · rw [hlen] at h0
          exact hne (List.eq_nil_of_length_eq_zero h0)
        · exact hbad (hsq_iff.mpr hsq)
    · rw [if_pos]
      · constructor
        · intro h
          exact absurd h (by simp)
        · rintro ⟨h1, -⟩
          exact absurd h1 hsq
      · right
        rw [hsq_iff]
        exact hsq

/-- Unpacking a successful run of the full optimizer pipeline. -/
theorem optimize_order_from_durations_ok (m : RawMatrix) (fsi fei : Option Int)
    (r : OptimizeResult) (h : optimize_order_from_durations m fsi fei = .ok r) :
    ∃ cm, to_cost_matrix m = .ok cm ∧ r = optimize_core m.length (matEntry cm) fsi fei := by
  rw [optimize_order_from_durations] at h
  cases hconv : to_cost_matrix m with
  | error e =>
    rw [hconv] at h
    exact absurd h (by simp)
  | ok cm =>
    rw [hconv] at h
    dsimp only at h
    cases hval : validate_full_matrix cm with
    | error e =>
      rw [hval] at h
      exact absurd h (by simp)
    | ok u =>
      rw [hval] at h
      exact ⟨cm, rfl, (Except.ok.inj h).symm⟩

/-! ## Claim theorems

The rational operations of the standard library are sealed against
unfolding; re-marking them lets `decide` evaluate the embedded functions
on the concrete inputs of the witnesses and counterexamples below. -/

attribute [local semireducible] Rat.add Rat.mul Rat.sub Rat.inv Rat.ofScientific

/-- C1: for every durations matrix the optimizer accepts (square, all
entries present) and any start/end anchor arguments, the order returned by
`optimize_order_from_durations` is a permutation of `0..N-1`: every index
appears exactly once. -/
theorem C1_optimizer_returns_permutation (m : RawMatrix) (fsi fei : Option Int)
    (r : OptimizeResult) (h : optimize_order_from_durations m fsi fei = .ok r) :
    r.order.Perm (List.range m.length) := by
  obtain ⟨cm, -, rfl⟩ := optimize_order_from_durations_ok m fsi fei r h
  exact optimize_core_perm m.length (matEntry cm) fsi fei

/-- C2: 2-Opt refinement never worsens the open-path cost of any input
path; in particular the refined path never costs more than the
nearest-neighbor seed it refines. -/
theorem C2_two_opt_nonworsening (cost : Nat → Nat → ℚ) (order : List Nat)
    (fixed_start : Bool) (max_iter : Nat) (n : Nat) (start : Int) (e : Option Int) :
    path_cost cost (two_opt_improve cost order fixed_start max_iter) ≤
      path_cost cost order ∧
    path_cost cost
        (two_opt_improve cost (nearest_neighbor_path n cost start e) fixed_start max_iter) ≤
      path_cost cost (nearest_neighbor_path n cost start e) :=
  ⟨two_opt_improve_cost cost order fixed_start max_iter,
    two_opt_improve_cost cost (nearest_neighbor_path n cost start e) fixed_start max_iter⟩

/-- C3: the constrained selector either returns an accepted soft candidate,
whose cost is then within `1.12 ×` the baseline cost (and the baseline cost
is positive), or it returns exactly the baseline — in particular whenever
`base.total_cost = 0` or no soft candidate exists. -/
theorem C3_soft_acceptance (base : OptimizeResult) (best_soft : Option OptimizeResult) :
    (∃ bs, best_soft = some bs ∧ select_result base best_soft = bs ∧
      0 < base.total_cost ∧
      bs.total_cost ≤ base.total_cost * (1 + SOFT_MAX_DEGRADATION)) ∨
    select_result base best_soft = base := by
  cases best_soft with
  | none => right; rfl
  | some bs =>
    by_cases h1 : 0 < base.total_cost
    · by_cases h2 : bs.total_cost ≤ base.total_cost * (1 + SOFT_MAX_DEGRADATION)
      · left
        refine ⟨bs, rfl, ?_, h1, h2⟩
        rw [select_result, if_pos h1, if_pos h2]
      · right
        rw [select_result, if_pos h1, if_neg h2]
    · right
      rw [select_result, if_neg h1]

/-- C4: when a valid hard start index `s` is supplied, every successful
pipeline run — the selector invokes this same pipeline for the baseline and
every soft candidate, always keeping the hard start — returns a route whose
first element is `s`. -/
theorem C4_fixed_start_first (m : RawMatrix) (s : Int) (e? : Option Int)
    (r : OptimizeResult) (h0 : 0 ≤ s) (hs : s < (m.length : Int))
    (h : optimize_order_from_durations m (some s) e? = .ok r) :
    r.order.head? = some s.toNat := by
  obtain ⟨cm, -, rfl⟩ := optimize_order_from_durations_ok m (some s) e? r h
  exact optimize_core_head m.length (matEntry cm) s e? h0 hs

/-- C5: when a valid end anchor is designated and its clamped index differs
from the resolved start, the returned route has the end anchor in its last
slot: nearest-neighbor keeps it for last and the 2-Opt reversal bounds
never reach the final position. -/
theorem C5_fixed_end_last (m : RawMatrix) (s? : Option Int) (e : Int)
    (r : OptimizeResult) (hn : 2 ≤ m.length) (h0 : 0 ≤ e) (he : e < (m.length : Int))
    (hdist : ∀ s, s? = some s → clampIdx m.length s ≠ e.toNat)
    (h : optimize_order_from_durations m s? (some e) = .ok r) :
    r.order.getLast? = some e.toNat := by
  obtain ⟨cm, -, rfl⟩ := optimize_order_from_durations_ok m s? (some e) r h
  exact optimize_core_last m.length (matEntry cm) s? e hn h0 he hdist

/-- C6 (corrected): the raw empty matrix is not accepted — `np.array([])`
is one-dimensional, so the squareness test `ndim != 2` rejects it. -/
theorem C6_counterexample :
    validate_durations ([] : RawMatrix) = .error "Cost matrix must be NxN" := rfl

/-- C6 (amended): the validator converts every missing cell to the
infinite sentinel; the empty raw matrix is rejected by the squareness
check (its array is one-dimensional); for a nonempty raw matrix validation
succeeds exactly when the matrix is square and no missing/infinite cell
remains; a `1 × 1` matrix with a present entry is accepted. -/
theorem C6_validator_amended (m : RawMatrix) (q : ℚ) :
    (toCostVal none = ⊤) ∧
    (∀ cm, to_cost_matrix m = .ok cm → ∀ i j,
      (cm.get? i).bind (fun r => r.get? j) =
        ((m.get? i).bind (fun r => r.get? j)).map toCostVal) ∧
    (validate_durations [] = .error "Cost matrix must be NxN") ∧
    (m ≠ [] → (validate_durations m = .ok () ↔
      ((∀ r ∈ m, r.length = m.length) ∧ ∀ r ∈ m, ∀ c ∈ r, c ≠ none))) ∧
    (validate_durations [[some q]] = .ok ()) := by
  refine ⟨rfl, ?_, rfl, validate_durations_iff m, ?_⟩
  · intro cm hcm i j
    exact to_cost_matrix_cell m cm hcm i j
  · exact (validate_durations_iff [[some q]] (by simp)).mpr
      (by constructor <;> simp)

/-- C7 (corrected): a forced single-stop day can exceed the active-time
budget with no equalization involved.  With pace `balanced`
(`target + tolerance = 525`), two stops with `600` travel minutes between
them pack into two one-stop days; the second day's packing-time active
minutes are `675 > 525`, and the final itinerary keeps both days with one
stop each (the equalization move did not fire). -/
theorem C7_counterexample :
    packDays "balanced" (fun p j => if p = 1 ∧ j = 2 then (600 : ℚ) else 0)
        (day_budget_min "balanced" + tolerance_min) [⟨1, none⟩, ⟨2, none⟩] =
      [[⟨⟨1, none⟩, 0, 75⟩], [⟨⟨2, none⟩, 600, 75⟩]] ∧
    daySteps [⟨⟨2, none⟩, 600, 75⟩] = 675 ∧
    day_budget_min "balanced" + tolerance_min < 675 ∧
    (build_days "balanced" (fun p j => if p = 1 ∧ j = 2 then (600 : ℚ) else 0)
        [⟨1, none⟩, ⟨2, none⟩]).map (fun d => (d.locations.length, d.active_min)) =
      [(1, 225 / 2), (1, 675)] := by
  refine ⟨by decide, by decide, by decide, by decide⟩

/-- C7 (amended): the day packing engine conserves the stop count across
all days, never produces an empty day, and every day holding at least two
stops has un-stretched active time at most `target + tolerance`; a day may
exceed the budget only when it consists of the single stop the engine is
forced to place. -/
theorem C7_day_packing_amended (pace : String) (segMap : Nat → Nat → ℚ)
    (queue : List Stop) :
    ((build_days pace segMap queue).map (fun d => d.locations.length)).sum =
      queue.length ∧
    (∀ d ∈ build_days pace segMap queue, d.locations ≠ []) ∧
    (∀ d ∈ packDays (pace_key_of pace) segMap
        (day_budget_min (pace_key_of pace) + tolerance_min) queue,
      2 ≤ d.length → daySteps d ≤ day_budget_min (pace_key_of pace) + tolerance_min) :=
  ⟨build_days_counts pace segMap queue, build_days_ne_nil pace segMap queue,
    (packDays_spec (pace_key_of pace) segMap
      (day_budget_min (pace_key_of pace) + tolerance_min) queue).2.2⟩

/-- C8: the candidate selection of one nearest-neighbor step (`pickNext`,
the embedding of Python's `min` over the candidate pool, which a CPython
set of the indices `0..n-1` iterates in ascending order) picks a candidate
of minimal edge cost and, among exact ties, the lowest index; and the
optimizer core is a pure function, so two runs on identical inputs return
identical routes. -/
theorem C8_deterministic_tie_break (f : Nat → ℚ) (l : List Nat)
    (hne : l ≠ []) (hsorted : l.Pairwise (· < ·))
    (n : Nat) (cost : Nat → Nat → ℚ) (s? e? : Option Int) :
    (pickNext f l ∈ l ∧
      (∀ j ∈ l, f (pickNext f l) ≤ f j) ∧
      (∀ j ∈ l, f j = f (pickNext f l) → pickNext f l ≤ j)) ∧
    optimize_core n cost s? e? = optimize_core n cost s? e? := by
  refine ⟨?_, rfl⟩
  cases l with
  | nil => exact absurd rfl hne
  | cons c cs =>
    exact ⟨pickNext_mem f c cs, pickNext_le f c cs, foldl_pick_tie f cs c hsorted⟩

/-- C9 (corrected): a malformed anchor id (swallowed by the
`except Exception` handler) or an unknown id (absent from `id_to_index`)
leaves the anchor unset and the anchor phase returns successfully — no
`InvalidInputError` is raised. -/
theorem C9_counterexample :
    anchor_phase (fun _ => none) RawAnchor.malformed RawAnchor.absent =
      .ok (none, none) ∧
    anchor_phase (fun _ => none) (RawAnchor.intVal 42) RawAnchor.absent =
      .ok (none, none) :=
  ⟨rfl, rfl⟩

/-- C9 (amended): a malformed, blank, or unknown start/end anchor id is
silently ignored — the anchor is treated as absent — and the anchor phase
of the optimize operation always proceeds without error; no
`InvalidInputError` is raised for anchor ids. -/
theorem C9_anchor_amended (idToIndex : Int → Option Nat) (rawStart rawEnd : RawAnchor) :
    resolve_anchor idToIndex RawAnchor.malformed = none ∧
    resolve_anchor idToIndex RawAnchor.blank = none ∧
    (∀ i, idToIndex i = none → resolve_anchor idToIndex (RawAnchor.intVal i) = none) ∧
    ∃ p, anchor_phase idToIndex rawStart rawEnd = .ok p :=
  ⟨rfl, rfl, fun _ h => h, ⟨_, rfl⟩⟩

/-- C10: when start and end anchors resolve to the same stop index, the
end anchor is silently dropped (the anchor phase returns it as absent and
raises nothing), and the optimizer core itself behaves identically with an
end index that clamps onto the start and with no end index at all. -/
theorem C10_same_anchor_end_dropped (idToIndex : Int → Option Nat)
    (rawStart rawEnd : RawAnchor) (i : Nat) (n : Nat) (cost : Nat → Nat → ℚ)
    (s e : Int)
    (hs : resolve_anchor idToIndex rawStart = some i)
    (he : resolve_anchor idToIndex rawEnd = some i)
    (hclamp : clampIdx n s = clampIdx n e) :
    anchor_phase idToIndex rawStart rawEnd = .ok (some i, none) ∧
    optimize_core n cost (some s) (some e) = optimize_core n cost (some s) none := by
  constructor
  · rw [anchor_phase, hs, he, if_pos ⟨by simp, by simp, rfl⟩]
  · exact optimize_core_drop_end n cost s e hclamp

/-! ## Witnesses: concrete instantiations of the claim theorems -/

/-- Witness for C1 on a concrete `2 × 2` matrix. -/
theorem C1_witness :
    optimize_order_from_durations [[some 0, some 10], [some 10, some 0]] (some 0) none =
      .ok ⟨[0, 1], 10⟩ ∧
    (OptimizeResult.mk [0, 1] 10).order.Perm (List.range 2) :=
  ⟨by rfl,
    C1_optimizer_returns_permutation [[some 0, some 10], [some 10, some 0]] (some 0) none
      ⟨[0, 1], 10⟩ (by rfl)⟩

/-- Witness for C4 on a concrete `2 × 2` matrix with hard start `0`. -/
theorem C4_witness :
    (0 : Int) ≤ 0 ∧
    (0 : Int) < (([[some (0 : ℚ), some 10], [some 10, some 0]] : RawMatrix).length : Int) ∧
    optimize_order_from_durations [[some 0, some 10], [some 10, some 0]] (some 0) none =
      .ok ⟨[0, 1], 10⟩ ∧
    (OptimizeResult.mk [0, 1] 10).order.head? = some (Int.toNat 0) :=
  ⟨by decide, by decide, by rfl,
    C4_fixed_start_first [[some 0, some 10], [some 10, some 0]] 0 none ⟨[0, 1], 10⟩
      (by decide) (by decide) (by rfl)⟩

/-- Witness for C5 on a concrete `2 × 2` matrix with start `0`, end `1`. -/
theorem C5_witness :
    2 ≤ ([[some (0 : ℚ), some 10], [some 10, some 0]] : RawMatrix).length ∧
    optimize_order_from_durations [[some 0, some 10], [some 10, some 0]] (some 0) (some 1) =
      .ok ⟨[0, 1], 10⟩ ∧
    (OptimizeResult.mk [0, 1] 10).order.getLast? = some (Int.toNat 1) :=
  ⟨by decide, by rfl,
    C5_fixed_end_last [[some 0, some 10], [some 10, some 0]] (some 0) 1 ⟨[0, 1], 10⟩
      (by decide) (by decide) (by decide)
      (fun s hs => by rw [← Option.some.inj hs]; decide) (by rfl)⟩

/-- Witness for C6: the validation law instantiated on a concrete `2 × 2`
matrix with one missing cell, which it rejects. -/
theorem C6_witness :
    (([[some (0 : ℚ), none], [some 1, some 0]] : RawMatrix) ≠ []) ∧
    (validate_durations [[some (0 : ℚ), none], [some 1, some 0]] = .ok () ↔
      ((∀ r ∈ ([[some (0 : ℚ), none], [some 1, some 0]] : RawMatrix),
          r.length = ([[some (0 : ℚ), none], [some 1, some 0]] : RawMatrix).length) ∧
        ∀ r ∈ ([[some (0 : ℚ), none], [some 1, some 0]] : RawMatrix), ∀ c ∈ r, c ≠ none)) :=
  ⟨by decide,
    (C6_validator_amended [[some (0 : ℚ), none], [some 1, some 0]] 0).2.2.2.1 (by decide)⟩

/-- Witness for C7 on two zero-travel stops at pace `balanced`: one day of
two stops, whose un-stretched active time respects the budget. -/
theorem C7_witness :
    (((build_days "balanced" (fun _ _ => 0) [⟨1, none⟩, ⟨2, none⟩]).map
        (fun d => d.locations.length)).sum = ([⟨1, none⟩, ⟨2, none⟩] : List Stop).length) ∧
    (DayPlan.mk 1 [⟨⟨1, none⟩, 112, 0⟩, ⟨⟨2, none⟩, 112, 0⟩] 0 225 225 120 345).locations ≠ [] ∧
    daySteps [⟨⟨1, none⟩, 0, 75⟩, ⟨⟨2, none⟩, 0, 75⟩] ≤
      day_budget_min (pace_key_of "balanced") + tolerance_min :=
  ⟨(C7_day_packing_amended "balanced" (fun _ _ => 0) [⟨1, none⟩, ⟨2, none⟩]).1,
    (C7_day_packing_amended "balanced" (fun _ _ => 0) [⟨1, none⟩, ⟨2, none⟩]).2.1
      (DayPlan.mk 1 [⟨⟨1, none⟩, 112, 0⟩, ⟨⟨2, none⟩, 112, 0⟩] 0 225 225 120 345) (by decide),
    (C7_day_packing_amended "balanced" (fun _ _ => 0) [⟨1, none⟩, ⟨2, none⟩]).2.2
      [⟨⟨1, none⟩, 0, 75⟩, ⟨⟨2, none⟩, 0, 75⟩] (by decide) (by decide)⟩

/-- Witness for C8 on a two-candidate pool with tied costs: the lower
index wins. -/
theorem C8_witness :
    (([0, 1] : List Nat) ≠ [] ∧ ([0, 1] : List Nat).Pairwise (· < ·)) ∧
    ((pickNext (fun _ => (0 : ℚ)) [0, 1] ∈ ([0, 1] : List Nat) ∧
      (∀ j ∈ ([0, 1] : List Nat), (fun _ => (0 : ℚ)) (pickNext (fun _ => (0 : ℚ)) [0, 1]) ≤
        (fun _ => (0 : ℚ)) j) ∧
      (∀ j ∈ ([0, 1] : List Nat), (fun _ => (0 : ℚ)) j =
        (fun _ => (0 : ℚ)) (pickNext (fun _ => (0 : ℚ)) [0, 1]) →
        pickNext (fun _ => (0 : ℚ)) [0, 1] ≤ j)) ∧
     optimize_core 2 (fun _ _ => 0) none none = optimize_core 2 (fun _ _ => 0) none none) :=
  ⟨⟨by decide, by decide⟩,
    C8_deterministic_tie_break (fun _ => (0 : ℚ)) [0, 1] (by decide) (by decide)
      2 (fun _ _ => 0) none none⟩

/-- Witness for C9: an unknown id resolves to nothing and the anchor phase
still succeeds. -/
theorem C9_witness :
    ((fun _ : Int => (none : Option Nat)) 42 = none) ∧
    resolve_anchor (fun _ => none) (RawAnchor.intVal 42) = none ∧
    ∃ p, anchor_phase (fun _ => none) RawAnchor.malformed RawAnchor.absent = .ok p :=
  ⟨rfl,
    (C9_anchor_amended (fun _ => none) RawAnchor.malformed RawAnchor.absent).2.2.1 42 rfl,
    (C9_anchor_amended (fun _ => none) RawAnchor.malformed RawAnchor.absent).2.2.2⟩

/-- Witness for C10: both anchors resolve to stop index `0`; the end is
dropped and the optimizer behaves as if no end was given. -/
theorem C10_witness :
    resolve_anchor (fun k => if k = 5 then some 0 else none) (RawAnchor.intVal 5) = some 0 ∧
    clampIdx 2 0 = clampIdx 2 0 ∧
    (anchor_phase (fun k => if k = 5 then some 0 else none)
        (RawAnchor.intVal 5) (RawAnchor.intVal 5) = .ok (some 0, none) ∧
      optimize_core 2 (fun _ _ => 0) (some 0) (some 0) =
        optimize_core 2 (fun _ _ => 0) (some 0) none) :=
  ⟨by decide, rfl,
    C10_same_anchor_end_dropped (fun k => if k = 5 then some 0 else none)
      (RawAnchor.intVal 5) (RawAnchor.intVal 5) 0 2 (fun _ _ => 0) 0 0
      (by decide) (by decide) rfl⟩

end Triplit
